import Mathlib

/-!
Verification of the latency-instrumentation core of a FastAPI service
(`app/middleware.py` together with the metrics query surface described in the
design document).  The Python source is shallowly embedded: latency samples
are rationals (every IEEE-754 binary64 value is a rational), the module-level
`deque(maxlen=1000)` becomes a Lean list threaded through explicit state
passing, a raised exception becomes `Except.error` / a failed list index
becomes `none`, and the binary64 arithmetic in `calculate_percentile`
(CPython evaluates `int((len(samples) / 100) * rank)` in double precision)
is modelled exactly by integer mantissa computations.
-/

/-- Round `n / d` to the nearest integer, ties to even.  This is the IEEE-754
round-to-nearest-even rule applied to the mantissa `n / d` (`d` a power of two
times the divisor scale chosen by the caller). -/
def rnde (n d : ℕ) : ℕ :=
  let q := n / d
  let r := n % d
  if 2 * r < d then q
  else if d < 2 * r then q + 1
  else if q % 2 = 0 then q else q + 1

/-- Bit length with explicit structural fuel so that the kernel can evaluate
it; `bitlenAux f n` is the bit length of `n` provided `n < 2 ^ f`. -/
def bitlenAux : ℕ → ℕ → ℕ
  | 0, _ => 0
  | f + 1, n => if n = 0 then 0 else bitlenAux f (n / 2) + 1

/-- Bit length of a natural number (`0` for `0`).  Every quantity handled by
the binary64 model below is far below `2 ^ 128`. -/
def bitlen (n : ℕ) : ℕ := bitlenAux 128 n

/-- `⌊log₂ (p / q)⌋` for `p, q ≥ 1`: the exponent of the binade containing
the positive rational `p / q`. -/
def flog2 (p q : ℕ) : ℤ :=
  let d : ℤ := (bitlen p : ℤ) - (bitlen q : ℤ)
  if q * 2 ^ d.toNat ≤ p * 2 ^ (-d).toNat then d else d - 1

/-- Round the positive rational `p / q` to IEEE-754 binary64 (round to
nearest, ties to even): returns `(m, e)` with the rounded value equal to
`m * 2 ^ (e - 52)` and `2 ^ 52 ≤ m ≤ 2 ^ 53`.  The exponent is not clamped:
all quantities in this development lie far inside the normal range of
binary64, where the model coincides with the hardware format. -/
def flMantExp (p q : ℕ) : ℕ × ℤ :=
  let e := flog2 p q
  let s : ℤ := 52 - e
  (rnde (p * 2 ^ s.toNat) (q * 2 ^ (-s).toNat), e)

/-- `int((n / 100) * r)` for `n, r ≥ 0` exactly as CPython evaluates it:
`n / 100` is the correctly rounded binary64 quotient, the multiplication by
`r` (exact in binary64 for `r ≤ 2 ^ 53`) is again correctly rounded, and
`int` truncates.  `flMantExp n 100` is the quotient; the product mantissa is
rounded back to 53 bits; the final `if` is the truncation of
`m * 2 ^ (t + e₁ - 52)`. -/
def floatTargetNat (n r : ℕ) : ℕ :=
  if n = 0 ∨ r = 0 then 0
  else
    match flMantExp n 100 with
    | (m1, e1) =>
      let p := m1 * r
      let t := bitlen (p / 2 ^ 53)
      let m := rnde p (2 ^ t)
      let E : ℤ := (t : ℤ) + e1 - 52
      if 0 ≤ E then (m * 2 ^ E.toNat : ℕ) else m / 2 ^ (-E).toNat

/-- `int((n / 100) * r)` for an arbitrary integer rank `r`.  Binary64
rounding and Python `int` truncation are both symmetric under negation, so
the sign is dispatched here and magnitudes are computed in `floatTargetNat`. -/
def floatTarget (n : ℕ) (r : ℤ) : ℤ :=
  if 0 ≤ r then (floatTargetNat n r.toNat : ℤ) else -(floatTargetNat n (-r).toNat : ℤ)

/-- Python `sorted(latency_samples)`: the ascending reordering of the
samples.  (`sorted` is stable, but on a list of plain numbers the ascending
reordering is unique, so insertion sort embeds it faithfully.) -/
def sortedSamples (l : List ℚ) : List ℚ := l.insertionSort (· ≤ ·)

/-- `calculate_percentile` from `app/middleware.py`, line for line:
empty input returns `None`; otherwise the samples are sorted ascending,
`target_value = int((len(latency_samples) / 100) * target_latency_percentile)`
is evaluated in binary64, `index = max(target_value - 1, 0)`, and the sorted
list is indexed.  A Python `IndexError` (index past the end) is embedded as
`none`. -/
def calculate_percentile (latency_samples : List ℚ) (target_latency_percentile : ℤ) :
    Option ℚ :=
  if latency_samples.length = 0 then none
  else
    let sorted_samples := sortedSamples latency_samples
    let target_value : ℤ := floatTarget latency_samples.length target_latency_percentile
    let index : ℤ := max (target_value - 1) 0
    sorted_samples.get? index.toNat

/-- The fixed capacity of the rolling window: `deque(maxlen=1000)`. -/
def maxlen : ℕ := 1000

/-- `rolling_latency.append(x)` on a `deque(maxlen=1000)`: append on the
right, evicting the leftmost (oldest) sample when the deque is full. -/
def record (w : List ℚ) (x : ℚ) : List ℚ :=
  if w.length < maxlen then w ++ [x] else w.tail ++ [x]

/-- The module-level rolling window at process start: empty. -/
def rolling_latency : List ℚ := []

/-- The observable part of a response for the middleware: its header slots.
Header values carry the raw binary64 number; the source stores
`str(process_time)` and the string formatting itself is not modelled. -/
structure Response where
  headers : List (String × ℚ)
  deriving DecidableEq

/-- `response.headers[k] = v`: setting a header key overwrites any previous
occurrence. -/
def setHeader (resp : Response) (k : String) (v : ℚ) : Response :=
  ⟨resp.headers.filter (fun kv => kv.1 != k) ++ [(k, v)]⟩

/-- The middleware `add_process_time_header`, as explicit state passing.
`result` is the outcome of `await call_next(request)` and `process_time` the
elapsed wall-clock duration (real-time measurement is a parameter, not
modelled).  The source has no `try`/`finally`: when `call_next` raises, the
exception propagates before `rolling_latency.append` runs, so the window is
returned unchanged; on success the sample is recorded and the
`X-Process-Time` header is set. -/
def add_process_time_header (w : List ℚ) (result : Except String Response)
    (process_time : ℚ) : List ℚ × Except String Response :=
  match result with
  | Except.error e => (w, Except.error e)
  | Except.ok response =>
      (record w process_time,
       Except.ok (setHeader response "X-Process-Time" process_time))

/-- Modelled from the spec: the repository has no `GET /metrics` endpoint
under `src/` (the design document's MetricsEndpoint is absent from the
source), so the summary shape is taken from the spec's query surface:
`{"latency": {"P50", "P95", "P99"}, "sample_count"}`. -/
structure MetricsSummary where
  P50 : Option ℚ
  P95 : Option ℚ
  P99 : Option ℚ
  sample_count : ℕ
  deriving DecidableEq

/-- Modelled from the spec: `getMetricsSummary()` computes P50/P95/P99 from
one consistent snapshot of the rolling window plus the current sample
count, returning null-valued percentiles when the window is empty. -/
def getMetricsSummary (w : List ℚ) : MetricsSummary :=
  { P50 := calculate_percentile w 50
    P95 := calculate_percentile w 95
    P99 := calculate_percentile w 99
    sample_count := w.length }

/-- Modelled from the spec: `GET /latency/{percentile}` takes a snapshot of
the rolling window and delegates to the percentile calculator, rejecting a
rank outside `[0, 100]` with a validation error at the boundary
(InvalidRank) so that the computation is never run out of range. -/
def getLatencyPercentile (w : List ℚ) (rank : ℤ) : Except String (Option ℚ) :=
  if rank < 0 ∨ 100 < rank then Except.error "InvalidRank"
  else Except.ok (calculate_percentile w rank)

/-- The index formula exactly as the spec states it, in exact integer
arithmetic: `max(⌊count * rank / 100⌋ - 1, 0)` (truncated `Nat` subtraction
implements the clamp at 0 for nonnegative ranks). -/
def specIndex (n r : ℕ) : ℕ := n * r / 100 - 1

/-- A 29-element sample sequence, the smallest count at which the binary64
index computation visibly departs from the spec's exact formula. -/
def sample29 : List ℚ := (List.range 29).map (fun i => (i : ℚ))

/-- The length of a sample list at which the binary64 index computation
walks past the end of the sorted list. -/
def hugeN : ℕ := 7404092716464827103

lemma bitlenAux_zero (f : ℕ) : bitlenAux f 0 = 0 := by
  cases f <;> rfl

lemma length_sortedSamples (l : List ℚ) : (sortedSamples l).length = l.length :=
  (List.perm_insertionSort _ l).length_eq

lemma mem_of_mem_sortedSamples {l : List ℚ} {x : ℚ} (h : x ∈ sortedSamples l) : x ∈ l :=
  (List.perm_insertionSort _ l).mem_iff.mp h

lemma mem_sortedSamples_of_mem {l : List ℚ} {x : ℚ} (h : x ∈ l) : x ∈ sortedSamples l :=
  (List.perm_insertionSort _ l).mem_iff.mpr h

lemma sorted_sortedSamples (l : List ℚ) : List.Sorted (· ≤ ·) (sortedSamples l) :=
  List.sorted_insertionSort _ l

/-- The head of the sorted sample list is a minimum of the samples. -/
lemma sortedSamples_head_min (l : List ℚ) (hne : l ≠ []) :
    ∃ x, (sortedSamples l).get? 0 = some x ∧ x ∈ l ∧ ∀ y ∈ l, x ≤ y := by
  have hlen : (sortedSamples l).length = l.length := length_sortedSamples l
  have hpos : 0 < (sortedSamples l).length := by
    rw [hlen]
    exact List.length_pos.mpr hne
  obtain ⟨a, t, hat⟩ : ∃ a t, sortedSamples l = a :: t := by
    cases h : sortedSamples l with
    | nil => rw [h] at hpos; simp at hpos
    | cons a t => exact ⟨a, t, rfl⟩
  refine ⟨a, by rw [hat]; rfl, ?_, ?_⟩
  · exact mem_of_mem_sortedSamples (by rw [hat]; exact List.mem_cons_self a t)
  · intro y hy
    have hy' : y ∈ a :: t := by rw [← hat]; exact mem_sortedSamples_of_mem hy
    rcases List.mem_cons.mp hy' with h | h
    · exact le_of_eq h.symm
    · have hs := sorted_sortedSamples l
      rw [hat, List.sorted_cons] at hs
      exact hs.1 y h

/-- Claim C6: `calculate_percentile` on an empty sample sequence returns
`None` (not an exception), whatever the rank. -/
theorem calculate_percentile_empty (r : ℤ) : calculate_percentile [] r = none := rfl

/-- Claim C2 (evaluating the code on the failing path): when the downstream
handler raises, the middleware as written propagates the failure with the
rolling window unchanged — no elapsed-time sample is appended, contradicting
the spec's wrap-on-exit requirement. -/
theorem add_process_time_header_error_skips_record (w : List ℚ) (t : ℚ) (e : String) :
    add_process_time_header w (Except.error e) t = (w, Except.error e) := rfl

/-- Claim C7: the metrics summary of the window with zero samples recorded
is null-valued percentiles and a zero sample count. -/
theorem getMetricsSummary_empty :
    getMetricsSummary rolling_latency =
      { P50 := none, P95 := none, P99 := none, sample_count := 0 } := rfl

/-- Claim C5: a rank outside [0, 100] is rejected with a validation error at
the boundary, for every window state, so the percentile computation is never
run out of range. -/
theorem getLatencyPercentile_invalid_rank (w : List ℚ) (rank : ℤ)
    (h : rank < 0 ∨ 100 < rank) :
    getLatencyPercentile w rank = Except.error "InvalidRank" := by
  unfold getLatencyPercentile
  exact if_pos h

/-- Witness for `getLatencyPercentile_invalid_rank` at rank 101. -/
theorem getLatencyPercentile_invalid_rank_witness :
    ((101 : ℤ) < 0 ∨ (100 : ℤ) < 101) ∧
      getLatencyPercentile rolling_latency 101 = Except.error "InvalidRank" :=
  ⟨by decide, getLatencyPercentile_invalid_rank rolling_latency 101 (by decide)⟩

lemma foldl_record_eq_drop (samples : List ℚ) :
    List.foldl record rolling_latency samples = samples.drop (samples.length - maxlen) := by
  induction samples using List.reverseRecOn with
  | nil => rfl
  | append_singleton s x ih =>
      rw [List.foldl_append, List.foldl_cons, List.foldl_nil, ih]
      unfold record maxlen
      have hlx : (s ++ [x]).length = s.length + 1 := by
        rw [List.length_append, List.length_cons, List.length_nil]
      rcases lt_or_le s.length 1000 with h | h
      · have h0 : s.length - 1000 = 0 := by omega
        have h1 : (s ++ [x]).length - 1000 = 0 := by omega
        simp only [h0, h1, List.drop_zero]
        rw [if_pos h]
      · have hlen : (s.drop (s.length - 1000)).length = 1000 := by
          rw [List.length_drop]; omega
        rw [if_neg (by rw [hlen]; omega)]
        have htail : (s.drop (s.length - 1000)).tail = s.drop (s.length - 1000 + 1) := by
          rw [← List.drop_one, List.drop_drop]
        have hk : (s ++ [x]).length - 1000 = s.length - 1000 + 1 := by omega
        rw [htail, hk, List.drop_append_of_le_length (by omega)]

/-- Claim C4: for every sequence of recorded samples the rolling window holds
`min count maxlen` samples, and once the capacity (1000) is exceeded it holds
exactly the most recent 1000 samples in insertion order (FIFO eviction). -/
theorem rolling_window_capacity_fifo (samples : List ℚ) :
    (List.foldl record rolling_latency samples).length = min samples.length maxlen ∧
      List.foldl record rolling_latency samples =
        samples.drop (samples.length - maxlen) := by
  refine ⟨?_, foldl_record_eq_drop samples⟩
  rw [foldl_record_eq_drop samples, List.length_drop]
  omega

lemma bitlenAux_spec : ∀ f n : ℕ, 0 < n → n < 2 ^ f →
    2 ^ bitlenAux f n ≤ 2 * n ∧ n < 2 ^ bitlenAux f n := by
  intro f
  induction f with
  | zero =>
      intro n h1 h2
      simp only [pow_zero] at h2
      omega
  | succ f ih =>
      intro n h1 h2
      have hne : ¬ n = 0 := by omega
      rw [bitlenAux, if_neg hne]
      rcases Nat.lt_or_ge n 2 with hn | hn
      · have hn1 : n = 1 := by omega
        subst hn1
        norm_num [bitlenAux_zero]
      · have hdiv : 0 < n / 2 := by omega
        have hp : 2 ^ (f + 1) = 2 * 2 ^ f := by rw [pow_succ]; ring
        have hlt : n / 2 < 2 ^ f := by omega
        obtain ⟨ha, hb⟩ := ih (n / 2) hdiv hlt
        rw [pow_succ]
        omega

lemma bitlen_spec (n : ℕ) (h1 : 0 < n) (h2 : n < 2 ^ 128) :
    2 ^ bitlen n ≤ 2 * n ∧ n < 2 ^ bitlen n := bitlenAux_spec 128 n h1 h2

/-- Splitting a `toNat` power: `2 ^ s.toNat = 2 ^ s * 2 ^ (-s).toNat` in ℚ,
valid for every integer `s` because exactly one of the two `toNat`s is `0`. -/
lemma toNat_pow_ratio (s : ℤ) :
    (2:ℚ) ^ (s.toNat) = (2:ℚ) ^ s * (2:ℚ) ^ ((-s).toNat) := by
  rw [← zpow_natCast (2:ℚ) s.toNat, ← zpow_natCast (2:ℚ) (-s).toNat,
    ← zpow_add₀ (by norm_num : (2:ℚ) ≠ 0)]
  congr 1
  omega

/-- The comparison made inside `flog2`, translated to ℚ. -/
lemma natTest_iff (p q : ℕ) (d : ℤ) :
    (q * 2 ^ d.toNat ≤ p * 2 ^ (-d).toNat) ↔ (q:ℚ) * (2:ℚ) ^ d ≤ p := by
  have hk : (0:ℚ) < (2:ℚ) ^ ((-d).toNat) := by positivity
  rw [← Nat.cast_le (α := ℚ)]
  push_cast
  rw [toNat_pow_ratio d, ← mul_assoc, mul_le_mul_right hk]

lemma flog2_spec (p q : ℕ) (hp : 0 < p) (hq : 0 < q)
    (hp' : p < 2 ^ 128) (hq' : q < 2 ^ 128) :
    (2:ℚ) ^ flog2 p q ≤ (p:ℚ) / q ∧ (p:ℚ) / q < (2:ℚ) ^ (flog2 p q + 1) := by
  obtain ⟨hpl, hpu⟩ := bitlen_spec p hp hp'
  obtain ⟨hql, hqu⟩ := bitlen_spec q hq hq'
  have hq0 : (0:ℚ) < q := by exact_mod_cast hq
  have hpQl : (2:ℚ) ^ (bitlen p) ≤ 2 * p := by exact_mod_cast hpl
  have hpQu : (p:ℚ) < 2 ^ (bitlen p) := by exact_mod_cast hpu
  have hqQl : (2:ℚ) ^ (bitlen q) ≤ 2 * q := by exact_mod_cast hql
  have hqQu : (q:ℚ) < 2 ^ (bitlen q) := by exact_mod_cast hqu
  have hupper : (p:ℚ) / q < (2:ℚ) ^ ((bitlen p : ℤ) - bitlen q + 1) := by
    rw [div_lt_iff hq0]
    have hexp : (2:ℚ) ^ ((bitlen p : ℤ) - bitlen q + 1) * (2:ℚ) ^ (bitlen q) =
        2 * (2:ℚ) ^ (bitlen p) := by
      rw [← zpow_natCast (2:ℚ) (bitlen q), ← zpow_natCast (2:ℚ) (bitlen p),
        ← zpow_add₀ (by norm_num : (2:ℚ) ≠ 0)]
      rw [show (bitlen p : ℤ) - bitlen q + 1 + bitlen q = bitlen p + 1 by ring]
      rw [zpow_add₀ (by norm_num : (2:ℚ) ≠ 0), zpow_one]
      ring
    calc (p:ℚ) < 2 ^ (bitlen p) := hpQu
      _ = (2:ℚ) ^ ((bitlen p : ℤ) - bitlen q + 1) * (2:ℚ) ^ (bitlen q) / 2 := by
          rw [hexp]; ring
      _ ≤ (2:ℚ) ^ ((bitlen p : ℤ) - bitlen q + 1) * (2 * q) / 2 := by
          have hz : (0:ℚ) < (2:ℚ) ^ ((bitlen p : ℤ) - bitlen q + 1) := by positivity
          have := mul_le_mul_of_nonneg_left hqQl (le_of_lt hz)
          linarith
      _ = (2:ℚ) ^ ((bitlen p : ℤ) - bitlen q + 1) * q := by ring
  have hlower : (2:ℚ) ^ ((bitlen p : ℤ) - bitlen q - 1) < (p:ℚ) / q := by
    rw [lt_div_iff hq0]
    have hexp : (2:ℚ) ^ ((bitlen p : ℤ) - bitlen q - 1) * (2:ℚ) ^ (bitlen q) * 2 =
        (2:ℚ) ^ (bitlen p) := by
      rw [← zpow_natCast (2:ℚ) (bitlen q), ← zpow_natCast (2:ℚ) (bitlen p),
        ← zpow_add₀ (by norm_num : (2:ℚ) ≠ 0)]
      rw [show ((2:ℚ) ^ ((bitlen p : ℤ) - bitlen q - 1 + bitlen q) * 2 : ℚ) =
        (2:ℚ) ^ ((bitlen p : ℤ) - bitlen q - 1 + bitlen q) * 2 ^ (1:ℤ) by norm_num]
      rw [← zpow_add₀ (by norm_num : (2:ℚ) ≠ 0)]
      rw [show (bitlen p : ℤ) - bitlen q - 1 + bitlen q + 1 = bitlen p by ring]
    calc (2:ℚ) ^ ((bitlen p : ℤ) - bitlen q - 1) * q
        < (2:ℚ) ^ ((bitlen p : ℤ) - bitlen q - 1) * 2 ^ (bitlen q) := by
          have hz : (0:ℚ) < (2:ℚ) ^ ((bitlen p : ℤ) - bitlen q - 1) := by positivity
          exact mul_lt_mul_of_pos_left hqQu hz
      _ = (2:ℚ) ^ (bitlen p) / 2 := by rw [← hexp]; ring
      _ ≤ p := by linarith
  have hflog : flog2 p q =
      (if q * 2 ^ (((bitlen p : ℤ) - bitlen q)).toNat ≤
          p * 2 ^ (-((bitlen p : ℤ) - bitlen q)).toNat
        then ((bitlen p : ℤ) - bitlen q)
        else ((bitlen p : ℤ) - bitlen q) - 1) := rfl
  rw [hflog]
  split_ifs with htest
  · constructor
    · rw [le_div_iff hq0]
      have h := (natTest_iff p q ((bitlen p : ℤ) - bitlen q)).mp htest
      linarith
    · exact hupper
  · constructor
    · rw [show (bitlen p : ℤ) - bitlen q - 1 =
        (bitlen p : ℤ) - bitlen q - 1 from rfl]
      exact le_of_lt hlower
    · have h2 : ¬ ((q:ℚ) * (2:ℚ) ^ ((bitlen p : ℤ) - bitlen q) ≤ p) :=
        fun hc => htest ((natTest_iff p q ((bitlen p : ℤ) - bitlen q)).mpr hc)
      have h3 : (p:ℚ) < q * (2:ℚ) ^ ((bitlen p : ℤ) - bitlen q) := not_le.mp h2
      rw [show (bitlen p : ℤ) - bitlen q - 1 + 1 = (bitlen p : ℤ) - bitlen q by ring]
      rw [div_lt_iff hq0]
      linarith

lemma rnde_eq (n d : ℕ) : rnde n d =
    (if 2 * (n % d) < d then n / d
     else if d < 2 * (n % d) then n / d + 1
     else if (n / d) % 2 = 0 then n / d else n / d + 1) := rfl

/-- Round-to-nearest never moves a value by more than half a unit. -/
lemma rnde_bounds (n d : ℕ) (hd : 0 < d) :
    (n:ℚ) / d - 1 / 2 ≤ (rnde n d : ℚ) ∧ (rnde n d : ℚ) ≤ (n:ℚ) / d + 1 / 2 := by
  have hd0 : (0:ℚ) < d := by exact_mod_cast hd
  have hdiv : (n:ℚ) / d = ((n / d : ℕ) : ℚ) + ((n % d : ℕ) : ℚ) / d := by
    have hnd : (n:ℚ) = d * ((n / d : ℕ) : ℚ) + ((n % d : ℕ) : ℚ) := by
      exact_mod_cast (Nat.div_add_mod n d).symm
    rw [hnd]
    field_simp
    ring
  have hrlt : ((n % d : ℕ) : ℚ) < d := by exact_mod_cast Nat.mod_lt n hd
  have hr0 : (0:ℚ) ≤ ((n % d : ℕ) : ℚ) := by positivity
  rw [rnde_eq]
  split_ifs with h1 h2 h3
  · have hQ : 2 * ((n % d : ℕ) : ℚ) < d := by exact_mod_cast h1
    have hfrac : ((n % d : ℕ) : ℚ) / d < 1 / 2 := by
      rw [div_lt_div_iff hd0 (by norm_num : (0:ℚ) < 2)]
      linarith
    have hfrac0 : (0:ℚ) ≤ ((n % d : ℕ) : ℚ) / d := by positivity
    constructor <;> rw [hdiv] <;> linarith
  · have hQ : (d:ℚ) < 2 * ((n % d : ℕ) : ℚ) := by exact_mod_cast h2
    have hfrac : 1 / 2 < ((n % d : ℕ) : ℚ) / d := by
      rw [div_lt_div_iff (by norm_num : (0:ℚ) < 2) hd0]
      linarith
    have hfrac1 : ((n % d : ℕ) : ℚ) / d < 1 := by
      rw [div_lt_one hd0]; exact hrlt
    push_cast
    constructor <;> rw [hdiv] <;> linarith
  · have hQ : 2 * ((n % d : ℕ) : ℚ) = d := by
      have h4 : 2 * (n % d) = d := by omega
      exact_mod_cast h4
    have hfrac : ((n % d : ℕ) : ℚ) / d = 1 / 2 := by
      rw [div_eq_div_iff hd0.ne' (by norm_num : (2:ℚ) ≠ 0)]
      linarith
    constructor <;> rw [hdiv] <;> linarith
  · have hQ : 2 * ((n % d : ℕ) : ℚ) = d := by
      have h4 : 2 * (n % d) = d := by omega
      exact_mod_cast h4
    have hfrac : ((n % d : ℕ) : ℚ) / d = 1 / 2 := by
      rw [div_eq_div_iff hd0.ne' (by norm_num : (2:ℚ) ≠ 0)]
      linarith
    push_cast
    constructor <;> rw [hdiv] <;> linarith

/-- Correct rounding of `p / q` to 53 bits: the rounded value
`m * 2 ^ (e - 52)` is within relative error `2 ^ (-53)` of `p / q`, and the
mantissa does not exceed `2 ^ 53`. -/
lemma flMantExp_spec (p q : ℕ) (hp : 0 < p) (hq : 0 < q)
    (hp' : p < 2 ^ 128) (hq' : q < 2 ^ 128) :
    |((flMantExp p q).1 : ℚ) * (2:ℚ) ^ ((flMantExp p q).2 - 52) - (p:ℚ) / q| ≤
      ((p:ℚ) / q) * (2:ℚ) ^ (-53 : ℤ) ∧
    (flMantExp p q).1 ≤ 2 ^ 53 ∧ (flMantExp p q).2 = flog2 p q := by
  obtain ⟨hXl, hXu⟩ := flog2_spec p q hp hq hp' hq'
  have hfst : (flMantExp p q).1 =
      rnde (p * 2 ^ ((52 - flog2 p q)).toNat) (q * 2 ^ (-(52 - flog2 p q)).toNat) := rfl
  have hsnd : (flMantExp p q).2 = flog2 p q := rfl
  set e := flog2 p q with he
  set s : ℤ := 52 - e with hs
  set X := (p:ℚ) / q with hX
  set N := p * 2 ^ s.toNat with hN
  set D := q * 2 ^ (-s).toNat with hD
  have hDpos : 0 < D := by positivity
  have hND : (N:ℚ) / D = X * (2:ℚ) ^ s := by
    have hratio : ((2:ℚ) ^ s.toNat) / ((2:ℚ) ^ (-s).toNat) = (2:ℚ) ^ s := by
      rw [toNat_pow_ratio s]
      field_simp
    rw [hN, hD]
    push_cast
    rw [show ((p:ℚ) * 2 ^ s.toNat) / ((q:ℚ) * 2 ^ (-s).toNat) =
      ((p:ℚ) / q) * ((2:ℚ) ^ s.toNat / (2:ℚ) ^ (-s).toNat) from by ring]
    rw [hratio]
  obtain ⟨hrl, hru⟩ := rnde_bounds N D hDpos
  rw [hND] at hrl hru
  set m := rnde N D with hm
  have hcpos : (0:ℚ) < (2:ℚ) ^ (-s) := by positivity
  have hss : (2:ℚ) ^ s * (2:ℚ) ^ (-s) = 1 := by
    rw [← zpow_add₀ (by norm_num : (2:ℚ) ≠ 0)]
    norm_num
  have hXpos : 0 < X := by positivity
  have hup : (m:ℚ) * (2:ℚ) ^ (-s) ≤ X + (2:ℚ) ^ (-s) / 2 := by
    have h1 := mul_le_mul_of_nonneg_right hru hcpos.le
    calc (m:ℚ) * (2:ℚ) ^ (-s) ≤ (X * (2:ℚ) ^ s + 1 / 2) * (2:ℚ) ^ (-s) := h1
      _ = X * ((2:ℚ) ^ s * (2:ℚ) ^ (-s)) + (2:ℚ) ^ (-s) / 2 := by ring
      _ = X + (2:ℚ) ^ (-s) / 2 := by rw [hss]; ring
  have hlo : X - (2:ℚ) ^ (-s) / 2 ≤ (m:ℚ) * (2:ℚ) ^ (-s) := by
    have h1 := mul_le_mul_of_nonneg_right hrl hcpos.le
    calc X - (2:ℚ) ^ (-s) / 2
        = (X * (2:ℚ) ^ s - 1 / 2) * (2:ℚ) ^ (-s) + X * (1 - (2:ℚ) ^ s * (2:ℚ) ^ (-s)) := by
          ring
      _ = (X * (2:ℚ) ^ s - 1 / 2) * (2:ℚ) ^ (-s) := by rw [hss]; ring
      _ ≤ (m:ℚ) * (2:ℚ) ^ (-s) := h1
  have herr : (2:ℚ) ^ (-s) / 2 ≤ X * (2:ℚ) ^ (-53 : ℤ) := by
    have h2 : (2:ℚ) ^ (-s) / 2 = (2:ℚ) ^ (e - 53) := by
      rw [show -s = e - 52 from by rw [hs]; ring,
        show (e:ℤ) - 53 = (e - 52) + (-1) from by ring,
        zpow_add₀ (by norm_num : (2:ℚ) ≠ 0), zpow_neg, zpow_one]
      ring
    rw [h2, show (e:ℤ) - 53 = e + (-53) from by ring,
      zpow_add₀ (by norm_num : (2:ℚ) ≠ 0)]
    exact mul_le_mul_of_nonneg_right hXl (by positivity)
  have hmain : |(m:ℚ) * (2:ℚ) ^ (e - 52) - X| ≤ X * (2:ℚ) ^ (-53 : ℤ) := by
    rw [show (e:ℤ) - 52 = -s from by rw [hs]; ring]
    rw [abs_le]
    refine ⟨?_, ?_⟩
    · have ha : -((2:ℚ) ^ (-s) / 2) ≤ (m:ℚ) * (2:ℚ) ^ (-s) - X := by linarith [hlo]
      have hb : -(X * (2:ℚ) ^ (-53 : ℤ)) ≤ -((2:ℚ) ^ (-s) / 2) := neg_le_neg herr
      exact hb.trans ha
    · have ha : (m:ℚ) * (2:ℚ) ^ (-s) - X ≤ (2:ℚ) ^ (-s) / 2 := by linarith [hup]
      exact ha.trans herr
  refine ⟨?_, ?_, hsnd⟩
  · rw [hfst]
    rw [show (flMantExp p q).2 = e from hsnd]
    exact hmain
  · rw [hfst]
    have hmr : (m:ℚ) ≤ X * (2:ℚ) ^ s + 1 / 2 := hru
    have hXs : X * (2:ℚ) ^ s < (2:ℚ) ^ 53 := by
      have h1 : X < (2:ℚ) ^ (e + 1) := hXu
      have h2 : (2:ℚ) ^ (e + 1) * (2:ℚ) ^ s = (2:ℚ) ^ 53 := by
        rw [← zpow_add₀ (by norm_num : (2:ℚ) ≠ 0)]
        rw [show e + 1 + s = 53 from by rw [hs]; ring]
        norm_num
      calc X * (2:ℚ) ^ s < (2:ℚ) ^ (e + 1) * (2:ℚ) ^ s := by
            have hz : (0:ℚ) < (2:ℚ) ^ s := by positivity
            exact mul_lt_mul_of_pos_right h1 hz
        _ = (2:ℚ) ^ 53 := h2
    by_contra hcon
    have hge : 2 ^ 53 + 1 ≤ m := by omega
    have hgeQ : ((2:ℚ) ^ 53 + 1) ≤ (m:ℚ) := by exact_mod_cast hge
    linarith

lemma rnde_one (n : ℕ) : rnde n 1 = n := by
  rw [rnde_eq, Nat.mod_one, Nat.div_one]
  norm_num

/-- The second rounding inside `floatTargetNat`: rounding the exact product
mantissa `p2` to 53 bits moves it by at most `p2 / 2 ^ 53`. -/
lemma prod_round_bound (p2 : ℕ) (hpos : 0 < p2) (hhi : p2 < 2 ^ 128) :
    |(rnde p2 (2 ^ bitlen (p2 / 2 ^ 53)) : ℚ) * (2:ℚ) ^ (bitlen (p2 / 2 ^ 53)) - p2| ≤
      (p2:ℚ) / 2 ^ 53 := by
  rcases Nat.lt_or_ge p2 (2 ^ 53) with hsm | hlg
  · have hk : p2 / 2 ^ 53 = 0 := Nat.div_eq_of_lt hsm
    rw [hk, show bitlen 0 = 0 from bitlenAux_zero 128, pow_zero, rnde_one, pow_zero]
    simp only [mul_one, sub_self, abs_zero]
    positivity
  · set k := p2 / 2 ^ 53 with hkdef
    have hk1 : 1 ≤ k := by
      rw [hkdef]
      exact Nat.one_le_div_iff (by norm_num) |>.mpr hlg
    have hk2 : k < 2 ^ 128 := by
      have : k ≤ p2 := Nat.div_le_self p2 (2 ^ 53)
      omega
    obtain ⟨hkl, hku⟩ := bitlen_spec k hk1 hk2
    set t := bitlen k with htdef
    have hscale : 2 ^ t * 2 ^ 52 ≤ p2 := by
      have h1 : 2 ^ t * 2 ^ 52 ≤ 2 * k * 2 ^ 52 := Nat.mul_le_mul_right _ hkl
      have h2 : 2 * k * 2 ^ 52 = k * 2 ^ 53 := by ring
      have h3 : k * 2 ^ 53 ≤ p2 := by
        rw [hkdef]
        exact Nat.div_mul_le_self p2 (2 ^ 53)
      omega
    obtain ⟨hrl, hru⟩ := rnde_bounds p2 (2 ^ t) (by positivity)
    have hpow0 : (0:ℚ) < (2:ℚ) ^ t := by positivity
    have habs : |(rnde p2 (2 ^ t) : ℚ) * (2:ℚ) ^ t - p2| ≤ (2:ℚ) ^ t / 2 := by
      have hcast : ((2 ^ t : ℕ) : ℚ) = (2:ℚ) ^ t := by push_cast; ring
      rw [abs_le]
      constructor
      · have h := mul_le_mul_of_nonneg_right hrl hpow0.le
        rw [hcast] at h
        have hdp : ((p2:ℚ) / (2:ℚ) ^ t - 1 / 2) * (2:ℚ) ^ t =
            (p2:ℚ) - (2:ℚ) ^ t / 2 := by
          field_simp
          ring
        rw [hdp] at h
        linarith
      · have h := mul_le_mul_of_nonneg_right hru hpow0.le
        rw [hcast] at h
        have hdp : ((p2:ℚ) / (2:ℚ) ^ t + 1 / 2) * (2:ℚ) ^ t =
            (p2:ℚ) + (2:ℚ) ^ t / 2 := by
          field_simp
          ring
        rw [hdp] at h
        linarith
    have hfinal : (2:ℚ) ^ t / 2 ≤ (p2:ℚ) / 2 ^ 53 := by
      have hQ : ((2 ^ t * 2 ^ 52 : ℕ) : ℚ) ≤ (p2:ℚ) := by exact_mod_cast hscale
      push_cast at hQ
      rw [div_le_div_iff (by norm_num : (0:ℚ) < 2) (by positivity : (0:ℚ) < (2:ℚ) ^ 53)]
      calc (2:ℚ) ^ t * 2 ^ 53 = ((2:ℚ) ^ t * 2 ^ 52) * 2 := by ring
        _ ≤ (p2:ℚ) * 2 := by linarith
    exact habs.trans hfinal

/-- Main arithmetic fact about the source's index computation: for
`1 ≤ n ≤ 2 ^ 44` samples and rank `r ≤ 100`, the binary64 value
`int((n / 100) * r)` equals the exact `⌊n * r / 100⌋` or falls exactly one
below it.  (The two roundings lose at most a relative `3 * 2 ^ (-53)`, while
`n * r / 100` is never within `1 / 100` of the next integer from below.) -/
lemma floatTargetNat_near (n r : ℕ) (h1 : 1 ≤ n) (h2 : n ≤ 2 ^ 44) (hr : r ≤ 100) :
    floatTargetNat n r = n * r / 100 ∨ floatTargetNat n r + 1 = n * r / 100 := by
  rcases Nat.eq_zero_or_pos r with hr0 | hrpos
  · subst hr0
    left
    simp [floatTargetNat]
  have hcond : ¬ (n = 0 ∨ r = 0) := by omega
  obtain ⟨m1, e1, hP⟩ : ∃ m1 e1, flMantExp n 100 = (m1, e1) := ⟨_, _, rfl⟩
  have hval : |(m1:ℚ) * (2:ℚ) ^ (e1 - 52) - (n:ℚ) / 100| ≤
      ((n:ℚ) / 100) * (2:ℚ) ^ (-53 : ℤ) := by
    have h := (flMantExp_spec n 100 (by omega) (by norm_num)
      (lt_of_le_of_lt h2 (by norm_num)) (by norm_num)).1
    rw [hP] at h
    exact h
  have hm1b : m1 ≤ 2 ^ 53 := by
    have h := (flMantExp_spec n 100 (by omega) (by norm_num)
      (lt_of_le_of_lt h2 (by norm_num)) (by norm_num)).2.1
    rw [hP] at h
    exact h
  have hXpos : (0:ℚ) < (n:ℚ) / 100 := by positivity
  have hu1 : (2:ℚ) ^ (-53 : ℤ) = 1 / 2 ^ 53 := by
    rw [zpow_neg]
    norm_num
  have hm1pos : 0 < m1 := by
    by_contra h0
    have hm10 : m1 = 0 := by omega
    rw [hm10] at hval
    simp only [Nat.cast_zero, zero_mul, zero_sub, abs_neg] at hval
    rw [abs_of_pos hXpos, hu1] at hval
    linarith
  set p2 := m1 * r with hp2def
  set t := bitlen (p2 / 2 ^ 53) with htdef
  set m2 := rnde p2 (2 ^ t) with hm2def
  set E : ℤ := (t : ℤ) + e1 - 52 with hEdef
  have hft : floatTargetNat n r =
      if 0 ≤ E then m2 * 2 ^ E.toNat else m2 / 2 ^ (-E).toNat := by
    unfold floatTargetNat
    rw [if_neg hcond, hP]
  have hp2pos : 0 < p2 := Nat.mul_pos hm1pos hrpos
  have hp2hi : p2 < 2 ^ 128 := by
    have hb : p2 ≤ 2 ^ 53 * 100 := Nat.mul_le_mul hm1b hr
    have h100 : (2:ℕ) ^ 53 * 100 < 2 ^ 128 := by norm_num
    omega
  have hprod := prod_round_bound p2 hp2pos hp2hi
  rw [← htdef, ← hm2def] at hprod
  set w : ℚ := (2:ℚ) ^ (e1 - 52) with hwdef
  have hwpos : (0:ℚ) < w := by rw [hwdef]; positivity
  set X : ℚ := (n:ℚ) / 100 with hXdef
  set A : ℚ := (m1:ℚ) * w with hAdef
  set B : ℚ := (m2:ℚ) * (2:ℚ) ^ t * w with hBdef
  have hArp2 : (p2:ℚ) * w = A * r := by
    rw [hAdef, hp2def]
    push_cast
    ring
  have hBA : |B - A * r| ≤ A * r * (1 / 2 ^ 53) := by
    have h := mul_le_mul_of_nonneg_right hprod hwpos.le
    have hlhs : |B - A * r| = |(m2:ℚ) * (2:ℚ) ^ t - p2| * w := by
      rw [show B - A * r = ((m2:ℚ) * (2:ℚ) ^ t - p2) * w from by
        rw [hBdef, ← hArp2]; ring, abs_mul, abs_of_pos hwpos]
    rw [hlhs]
    calc |(m2:ℚ) * (2:ℚ) ^ t - p2| * w ≤ ((p2:ℚ) / 2 ^ 53) * w := h
      _ = A * r * (1 / 2 ^ 53) := by rw [← hArp2]; ring
  have hAX : |A * r - X * r| ≤ X * r * (1 / 2 ^ 53) := by
    have hlhs : |A * r - X * r| = |A - X| * r := by
      rw [show A * r - X * r = (A - X) * r from by ring, abs_mul,
        abs_of_nonneg (by positivity : (0:ℚ) ≤ (r:ℚ))]
    rw [hlhs]
    calc |A - X| * r ≤ (X * (2:ℚ) ^ (-53 : ℤ)) * r :=
          mul_le_mul_of_nonneg_right hval (by positivity)
      _ = X * r * (1 / 2 ^ 53) := by rw [hu1]; ring
  have htri : |B - X * r| ≤ X * r * (3 / 2 ^ 53) := by
    have h1 : |B - X * r| ≤ |B - A * r| + |A * r - X * r| := by
      have hsplit : B - X * r = (B - A * r) + (A * r - X * r) := by ring
      rw [hsplit]
      exact abs_add _ _
    have hA_le : A * r ≤ X * r + X * r * (1 / 2 ^ 53) := by
      have h := (abs_le.mp hAX).2
      linarith
    have hXr_pos : (0:ℚ) < X * r := by
      have hrQ : (0:ℚ) < r := by exact_mod_cast hrpos
      exact mul_pos hXpos hrQ
    linarith [hBA, hAX, h1, hA_le, hXr_pos]
  have hXr_le : X * r ≤ 2 ^ 44 := by
    rw [hXdef]
    have hn44 : (n:ℚ) ≤ 2 ^ 44 := by exact_mod_cast h2
    have hr100 : (r:ℚ) ≤ 100 := by exact_mod_cast hr
    calc (n:ℚ) / 100 * r ≤ (n:ℚ) / 100 * 100 :=
          mul_le_mul_of_nonneg_left hr100 (by positivity)
      _ = (n:ℚ) := by ring
      _ ≤ 2 ^ 44 := hn44
  have hdel : X * r * (3 / 2 ^ 53) < 1 / 100 := by
    have h3 : (0:ℚ) < 3 / 2 ^ 53 := by norm_num
    calc X * r * (3 / 2 ^ 53) ≤ (2:ℚ) ^ 44 * (3 / 2 ^ 53) :=
          mul_le_mul_of_nonneg_right hXr_le h3.le
      _ < 1 / 100 := by norm_num
  have htb : ((floatTargetNat n r : ℕ) : ℚ) ≤ B ∧
      B < ((floatTargetNat n r : ℕ) : ℚ) + 1 := by
    rw [hft]
    split_ifs with hE
    · have hpow : (2:ℚ) ^ (E.toNat) = (2:ℚ) ^ t * w := by
        rw [← zpow_natCast (2:ℚ) E.toNat, Int.toNat_of_nonneg hE, hwdef,
          ← zpow_natCast (2:ℚ) t, ← zpow_add₀ (by norm_num : (2:ℚ) ≠ 0)]
        congr 1
        rw [hEdef]
        ring
      have hBeq : B = ((m2 * 2 ^ E.toNat : ℕ) : ℚ) := by
        push_cast
        rw [hpow, hBdef]
        ring
      rw [← hBeq]
      exact ⟨le_refl B, by linarith⟩
    · set k := (-E).toNat with hkdef
      have hk_pos : 0 < 2 ^ k := Nat.pos_pow_of_pos k (by norm_num)
      have hdiv_le : (m2 / 2 ^ k) * 2 ^ k ≤ m2 := Nat.div_mul_le_self m2 (2 ^ k)
      have hdiv_lt : m2 < (m2 / 2 ^ k + 1) * 2 ^ k := by
        calc m2 = 2 ^ k * (m2 / 2 ^ k) + m2 % 2 ^ k :=
              (Nat.div_add_mod m2 (2 ^ k)).symm
          _ < 2 ^ k * (m2 / 2 ^ k) + 2 ^ k :=
              Nat.add_lt_add_left (Nat.mod_lt m2 hk_pos) _
          _ = (m2 / 2 ^ k + 1) * 2 ^ k := by ring
      have hpowE : (2:ℚ) ^ t * w = ((2:ℚ) ^ k)⁻¹ := by
        rw [hwdef, ← zpow_natCast (2:ℚ) t, ← zpow_add₀ (by norm_num : (2:ℚ) ≠ 0)]
        rw [show (t:ℤ) + (e1 - 52) = E from by rw [hEdef]; ring]
        rw [show (2:ℚ) ^ (k:ℕ) = (2:ℚ) ^ ((-E) : ℤ) from by
          rw [← zpow_natCast (2:ℚ) k, hkdef,
            Int.toNat_of_nonneg (by omega : (0:ℤ) ≤ -E)]]
        rw [← zpow_neg, neg_neg]
      have hBdiv : B = (m2:ℚ) / 2 ^ k := by
        rw [hBdef, mul_assoc, hpowE]
        ring
      constructor
      · rw [hBdiv, le_div_iff (by positivity : (0:ℚ) < (2:ℚ) ^ k)]
        exact_mod_cast hdiv_le
      · rw [hBdiv, div_lt_iff (by positivity : (0:ℚ) < (2:ℚ) ^ k)]
        exact_mod_cast hdiv_lt
  have hle : (n * r / 100) * 100 ≤ n * r := Nat.div_mul_le_self (n * r) 100
  have hlt : n * r < (n * r / 100 + 1) * 100 := by
    calc n * r = 100 * (n * r / 100) + (n * r) % 100 :=
          (Nat.div_add_mod (n * r) 100).symm
      _ < 100 * (n * r / 100) + 100 :=
          Nat.add_lt_add_left (Nat.mod_lt (n * r) (by norm_num)) _
      _ = (n * r / 100 + 1) * 100 := by ring
  have hXrval : X * r = ((n * r : ℕ) : ℚ) / 100 := by
    rw [hXdef]
    push_cast
    ring
  set e : ℕ := n * r / 100 with hedef
  have hfl1 : (e:ℚ) ≤ X * r := by
    rw [hXrval, le_div_iff (by norm_num : (0:ℚ) < 100)]
    exact_mod_cast hle
  have hfl2 : X * r ≤ (e:ℚ) + 99 / 100 := by
    rw [hXrval, div_le_iff (by norm_num : (0:ℚ) < 100)]
    have h99 : n * r ≤ e * 100 + 99 := by omega
    calc ((n * r : ℕ) : ℚ) ≤ ((e * 100 + 99 : ℕ) : ℚ) := by exact_mod_cast h99
      _ = ((e:ℚ) + 99 / 100) * 100 := by push_cast; ring
  obtain ⟨htb1, htb2⟩ := htb
  have habs := abs_le.mp htri
  set target := floatTargetNat n r with htargdef
  have hupN : target ≤ e := by
    have hq : (target:ℚ) < ((e + 1 : ℕ) : ℚ) := by push_cast; linarith
    have hq2 : target < e + 1 := by exact_mod_cast hq
    omega
  have hloN : e ≤ target + 1 := by
    have hq : (e:ℚ) < (target:ℚ) + 2 := by linarith
    have hq2 : (e:ℚ) < ((target + 2 : ℕ) : ℚ) := by push_cast; linarith
    have hq3 : e < target + 2 := by exact_mod_cast hq2
    omega
  omega

lemma floatTarget_natCast (n r : ℕ) : floatTarget n (r:ℤ) = (floatTargetNat n r : ℤ) := by
  unfold floatTarget
  rw [if_pos (Int.natCast_nonneg r), Int.toNat_natCast]

/-- For a nonnegative rank the clamped index inside `calculate_percentile`
is the saturating `Nat` subtraction `floatTargetNat n r - 1`. -/
lemma calculate_percentile_get_eq (l : List ℚ) (r : ℕ) (hne : l ≠ []) :
    calculate_percentile l (r:ℤ) =
      (sortedSamples l).get? (floatTargetNat l.length r - 1) := by
  have hlen : ¬ l.length = 0 := fun h => hne (List.length_eq_zero.mp h)
  have hcp : calculate_percentile l (r:ℤ) =
      if l.length = 0 then none
      else (sortedSamples l).get?
        ((max ((floatTarget l.length (r:ℤ)) - 1) 0).toNat) := rfl
  rw [hcp, if_neg hlen, floatTarget_natCast]
  congr 1
  omega

lemma floatIndex_bounds (n r : ℕ) (h1 : 1 ≤ n) (h2 : n ≤ 2 ^ 44) (hr : r ≤ 100) :
    floatTargetNat n r - 1 < n ∧
    (floatTargetNat n r - 1 = specIndex n r ∨
      floatTargetNat n r - 1 + 1 = specIndex n r) := by
  have hnear := floatTargetNat_near n r h1 h2 hr
  have hmul : n * r ≤ n * 100 := Nat.mul_le_mul_left n hr
  have he_le : n * r / 100 ≤ n := by omega
  unfold specIndex
  rcases hnear with h | h <;> omega

lemma calculate_percentile_mem (l : List ℚ) (r : ℕ) (hne : l ≠ [])
    (hlen : l.length ≤ 2 ^ 44) (hr : r ≤ 100) :
    ∃ x, calculate_percentile l (r:ℤ) = some x ∧ x ∈ l := by
  have h1 : 1 ≤ l.length := List.length_pos.mpr hne
  obtain ⟨hb, -⟩ := floatIndex_bounds l.length r h1 hlen hr
  have hidx : floatTargetNat l.length r - 1 < (sortedSamples l).length := by
    rw [length_sortedSamples]
    exact hb
  refine ⟨(sortedSamples l).get ⟨floatTargetNat l.length r - 1, hidx⟩, ?_, ?_⟩
  · rw [calculate_percentile_get_eq l r hne]
    exact List.get?_eq_get hidx
  · exact mem_of_mem_sortedSamples (List.get_mem _ _ _)

/-- Claim C1 (amended): for a non-empty sample list of realizable length and
rank in [0, 100], `calculate_percentile` returns the element of the sorted
list at index `max(int((count / 100) * rank) - 1, 0)` where the inner
expression is evaluated in binary64 as CPython does; that index equals the
spec's exact-arithmetic `max(⌊count * rank / 100⌋ - 1, 0)` or falls exactly
one below it, and it is always within bounds. -/
theorem calculate_percentile_float_index (l : List ℚ) (r : ℕ) (hne : l ≠ [])
    (hlen : l.length ≤ 2 ^ 44) (hr : r ≤ 100) :
    calculate_percentile l (r:ℤ) =
      (sortedSamples l).get? (floatTargetNat l.length r - 1) ∧
    (floatTargetNat l.length r - 1 = specIndex l.length r ∨
      floatTargetNat l.length r - 1 + 1 = specIndex l.length r) ∧
    floatTargetNat l.length r - 1 < l.length := by
  have h1 : 1 ≤ l.length := List.length_pos.mpr hne
  obtain ⟨hb, hd⟩ := floatIndex_bounds l.length r h1 hlen hr
  exact ⟨calculate_percentile_get_eq l r hne, hd, hb⟩

/-- Witness for `calculate_percentile_float_index` on `[1, 2]` at rank 50. -/
theorem calculate_percentile_float_index_witness :
    ([(1:ℚ), 2] ≠ []) ∧ (([(1:ℚ), 2] : List ℚ).length ≤ 2 ^ 44) ∧ 50 ≤ 100 ∧
      (calculate_percentile [(1:ℚ), 2] ((50:ℕ):ℤ) =
        (sortedSamples [(1:ℚ), 2]).get? (floatTargetNat ([(1:ℚ), 2] : List ℚ).length 50 - 1) ∧
      (floatTargetNat ([(1:ℚ), 2] : List ℚ).length 50 - 1 =
          specIndex ([(1:ℚ), 2] : List ℚ).length 50 ∨
        floatTargetNat ([(1:ℚ), 2] : List ℚ).length 50 - 1 + 1 =
          specIndex ([(1:ℚ), 2] : List ℚ).length 50) ∧
      floatTargetNat ([(1:ℚ), 2] : List ℚ).length 50 - 1 < ([(1:ℚ), 2] : List ℚ).length) :=
  ⟨by decide, by decide, by decide,
    calculate_percentile_float_index [(1:ℚ), 2] 50 (by decide) (by decide) (by decide)⟩

/-- Claim C1 counterexample: on 29 samples at rank 100 the code returns the
element at index 27, but the spec's exact formula names index
`max(⌊29 * 100 / 100⌋ - 1, 0) = 28`: binary64 rounding of `(29 / 100) * 100`
gives `28.999999999999996`, truncated to 28, index 27. -/
theorem calculate_percentile_exact_formula_refuted :
    (sortedSamples sample29).get? (specIndex sample29.length 100) = some 28 ∧
    calculate_percentile sample29 100 = some 27 ∧
    calculate_percentile sample29 100 ≠
      (sortedSamples sample29).get? (specIndex sample29.length 100) := by decide

/-- Claim C3 (amended): at rank 100 on a non-empty list of realizable
length, `calculate_percentile` returns the element at index `count - 1` of
the sorted list (the maximum) or — when binary64 rounding of
`(count / 100) * 100` drops below `count`, e.g. at count 29 — the element at
index `count - 2` (the second largest). -/
theorem calculate_percentile_rank100_near_max (l : List ℚ) (hne : l ≠ [])
    (hlen : l.length ≤ 2 ^ 44) :
    ∃ k, (k = l.length - 1 ∨ k = l.length - 2) ∧
      calculate_percentile l 100 = (sortedSamples l).get? k := by
  have h1 : 1 ≤ l.length := List.length_pos.mpr hne
  have hnear := floatTargetNat_near l.length 100 h1 hlen (le_refl 100)
  have h100 : l.length * 100 / 100 = l.length := by omega
  refine ⟨floatTargetNat l.length 100 - 1, ?_, ?_⟩
  · rcases hnear with h | h <;> omega
  · have h := calculate_percentile_get_eq l 100 hne
    exact_mod_cast h

/-- Witness for `calculate_percentile_rank100_near_max` on the singleton
`[5]`. -/
theorem calculate_percentile_rank100_near_max_witness :
    ([(5:ℚ)] ≠ []) ∧ (([(5:ℚ)] : List ℚ).length ≤ 2 ^ 44) ∧
      (∃ k, (k = ([(5:ℚ)] : List ℚ).length - 1 ∨ k = ([(5:ℚ)] : List ℚ).length - 2) ∧
        calculate_percentile [(5:ℚ)] 100 = (sortedSamples [(5:ℚ)]).get? k) :=
  ⟨by decide, by decide,
    calculate_percentile_rank100_near_max [(5:ℚ)] (by decide) (by decide)⟩

/-- Claim C3 counterexample: on 29 samples at rank 100 the maximum is 28 and
it belongs to the list, yet `calculate_percentile` returns 27 — rank 100
does not return the maximum for every count. -/
theorem calculate_percentile_rank100_not_max :
    calculate_percentile sample29 100 = some 27 ∧ (28:ℚ) ∈ sample29 ∧
    (∀ y ∈ sample29, y ≤ 28) ∧ (27:ℚ) ≠ 28 := by decide

/-- Claim C9 (amended): for every non-empty sample list of realizable length
(at most `2 ^ 44`; the rolling window holds at most 1000) and rank in
[0, 100], the clamped index is in bounds and an element of the input is
returned — no IndexError. -/
theorem calculate_percentile_no_index_error (l : List ℚ) (r : ℕ) (hne : l ≠ [])
    (hlen : l.length ≤ 2 ^ 44) (hr : r ≤ 100) :
    ∃ x, calculate_percentile l (r:ℤ) = some x ∧ x ∈ l :=
  calculate_percentile_mem l r hne hlen hr

/-- Witness for `calculate_percentile_no_index_error` on `[3, 1, 2]` at
rank 99. -/
theorem calculate_percentile_no_index_error_witness :
    ([(3:ℚ), 1, 2] ≠ []) ∧ (([(3:ℚ), 1, 2] : List ℚ).length ≤ 2 ^ 44) ∧ 99 ≤ 100 ∧
      (∃ x, calculate_percentile [(3:ℚ), 1, 2] ((99:ℕ):ℤ) = some x ∧
        x ∈ [(3:ℚ), 1, 2]) :=
  ⟨by decide, by decide, by decide,
    calculate_percentile_no_index_error [(3:ℚ), 1, 2] 99 (by decide) (by decide)
      (by decide)⟩

/-- Claim C9 counterexample: on a (physically unrealizable) list of
`hugeN ≈ 7.4 * 10 ^ 18` equal samples at rank 100, the binary64 index
computation overshoots the length — `int((hugeN / 100) * 100)` is
`7404092716464827392 > hugeN` — and the indexing fails (Python IndexError,
embedded as `none`), so the in-bounds claim is not true of every non-empty
sequence. -/
theorem calculate_percentile_huge_index_error :
    List.replicate hugeN (0:ℚ) ≠ [] ∧
    calculate_percentile (List.replicate hugeN (0:ℚ)) 100 = none := by
  constructor
  · exact List.length_pos.mp (by rw [List.length_replicate]; norm_num [hugeN])
  · have hcp : calculate_percentile (List.replicate hugeN (0:ℚ)) 100 =
        if (List.replicate hugeN (0:ℚ)).length = 0 then none
        else (sortedSamples (List.replicate hugeN (0:ℚ))).get?
          ((max ((floatTarget (List.replicate hugeN (0:ℚ)).length 100) - 1) 0).toNat) :=
      rfl
    rw [hcp, List.length_replicate, if_neg (by norm_num [hugeN])]
    apply List.get?_eq_none.mpr
    rw [length_sortedSamples, List.length_replicate]
    have hT : floatTargetNat hugeN 100 = 7404092716464827392 := by decide
    have hT2 : floatTarget hugeN 100 = (7404092716464827392 : ℤ) := by
      have h := floatTarget_natCast hugeN 100
      rw [hT] at h
      exact_mod_cast h
    rw [hT2]
    simp only [hugeN]
    omega

lemma floatTargetNat_zero_rank (n : ℕ) : floatTargetNat n 0 = 0 := by
  simp [floatTargetNat]

lemma calculate_percentile_index_zero (l : List ℚ) (r : ℤ) (hne : l ≠ [])
    (hr : floatTarget l.length r ≤ 0) :
    calculate_percentile l r = (sortedSamples l).get? 0 := by
  have hlen : ¬ l.length = 0 := fun h => hne (List.length_eq_zero.mp h)
  have hcp : calculate_percentile l r =
      if l.length = 0 then none
      else (sortedSamples l).get?
        ((max ((floatTarget l.length r) - 1) 0).toNat) := rfl
  rw [hcp, if_neg hlen]
  congr 1
  omega

/-- Claim C10: for a negative rank on a non-empty list,
`calculate_percentile` does not fail: the clamp at 0 makes it return the
minimum sample, the same result as rank 0. -/
theorem calculate_percentile_negative_rank (l : List ℚ) (r : ℤ) (hne : l ≠ [])
    (hr : r < 0) :
    calculate_percentile l r = calculate_percentile l 0 ∧
    ∃ x, calculate_percentile l r = some x ∧ x ∈ l ∧ ∀ y ∈ l, x ≤ y := by
  have hneg : floatTarget l.length r ≤ 0 := by
    unfold floatTarget
    rw [if_neg (by omega : ¬ (0:ℤ) ≤ r)]
    omega
  have hzero : floatTarget l.length 0 ≤ 0 := by
    unfold floatTarget
    rw [if_pos (le_refl (0:ℤ))]
    simp [floatTargetNat_zero_rank]
  have h1 := calculate_percentile_index_zero l r hne hneg
  have h2 := calculate_percentile_index_zero l 0 hne hzero
  obtain ⟨x, hx0, hxmem, hxmin⟩ := sortedSamples_head_min l hne
  exact ⟨by rw [h1, h2], x, by rw [h1]; exact hx0, hxmem, hxmin⟩

/-- Witness for `calculate_percentile_negative_rank` on `[2, 1]` at
rank −5. -/
theorem calculate_percentile_negative_rank_witness :
    ([(2:ℚ), 1] ≠ []) ∧ ((-5:ℤ) < 0) ∧
      (calculate_percentile [(2:ℚ), 1] (-5) = calculate_percentile [(2:ℚ), 1] 0 ∧
       ∃ x, calculate_percentile [(2:ℚ), 1] (-5) = some x ∧ x ∈ [(2:ℚ), 1] ∧
         ∀ y ∈ [(2:ℚ), 1], x ≤ y) :=
  ⟨by decide, by decide,
    calculate_percentile_negative_rank [(2:ℚ), 1] (-5) (by decide) (by decide)⟩
